/-
Verification of the Hakka pronunciation converter
(src/hakka_pronunciation_converter.py) against its specification.

Strings are modelled as `List Char`.  The Python tokenising idiom
`re.split` over the pattern `(\s+|[(),.:;—]+)` (keeping separators and
dropping empty parts) is modelled by `chunks`, which cuts a string into
maximal runs of characters of equal class (whitespace / punctuation /
word); on this pattern the two coincide because every separator match is
a maximal single-class run.  `unicodedata.normalize` is modelled by
finite decomposition/composition tables restricted to the characters
this engine consumes and emits; the `\s` class and `str.isspace` are
modelled on their ASCII subset, and `str.isdigit` on ASCII digits plus
the superscript digits the engine can emit.
-/
import Mathlib

set_option maxHeartbeats 1000000

/-- Characters of the whitespace class (ASCII subset of Python `\s`). -/
def space_chars : List Char := [' ', '\t', '\n', '\r', '\x0b', '\x0c']

def is_space_char (c : Char) : Bool := space_chars.contains c

/-- The fixed punctuation class `[(),.:;—]` used by all tokenising regexes. -/
def punct_chars : List Char := ['(', ')', ',', '.', ':', ';', '—']

def is_punct_char (c : Char) : Bool := punct_chars.contains c

/-- Character classes of the tokeniser. -/
inductive CClass where
  | space
  | punct
  | word
deriving DecidableEq, Repr

def charClass (c : Char) : CClass :=
  if is_space_char c then .space else if is_punct_char c then .punct else .word

/-- Tokeniser: maximal runs of same-class characters.  Models the
`re.split` calls of the converter (separator parts kept, empty parts
dropped). -/
def chunks : List Char → List (List Char)
  | [] => []
  | c :: cs =>
    match chunks cs with
    | [] => [[c]]
    | [] :: rest => [c] :: [] :: rest
    | (d :: ds) :: rest =>
      if charClass c = charClass d then (c :: d :: ds) :: rest
      else [c] :: (d :: ds) :: rest

/-- A part matching `^[\s(),.:;—]+$`; on the non-empty single-class parts
produced by `chunks` this is exactly the separator test of the source. -/
def is_sep_chunk (p : List Char) : Bool :=
  p.all (fun c => is_space_char c || is_punct_char c)

/-- str.replace of two hyphens by an em-dash (left-to-right,
non-overlapping), the backward-compatibility pre-pass. -/
def replace_dashes : List Char → List Char
  | '-' :: '-' :: rest => '—' :: replace_dashes rest
  | c :: rest => c :: replace_dashes rest
  | [] => []

/-- The five combining diacritic classes (DIACRITICS). -/
inductive Diac where
  | acute
  | grave
  | macron
  | macron_below
  | dot_below
deriving DecidableEq, Fintype, Repr

def DIACRITICS : List (Char × Diac) :=
  [('́', .acute), ('̀', .grave), ('̄', .macron),
   ('̱', .macron_below), ('̣', .dot_below)]

def diac_class (c : Char) : Option Diac := DIACRITICS.lookup c

def diac_name : Diac → String
  | .acute => "acute"
  | .grave => "grave"
  | .macron => "macron"
  | .macron_below => "macron_below"
  | .dot_below => "dot_below"

def SIYEN_TONES : List (String × Char) :=
  [("acute", '1'), ("grave", '2'), ("none", '3'), ("dot_below", '4'),
   ("macron_below", '5'), ("none_checked", '8')]

def HOILIUK_TONES : List (String × Char) :=
  [("grave", '1'), ("acute", '2'), ("macron_below", '3'), ("none_checked", '4'),
   ("none", '5'), ("macron", '7'), ("dot_below", '8')]

def CHECKED_FINALS : List Char := ['p', 't', 'k']

def CONVERTED_FINALS : List (Char × Char) := [('p', 'b'), ('t', 'd'), ('k', 'g')]

def INITIALS : List (List Char) :=
  ["zh", "ch", "sh", "ng", "rh", "bb", "gg", "zz",
   "b", "c", "d", "f", "g", "h", "j", "k", "l", "m", "n",
   "p", "q", "s", "t", "v", "x", "z"].map String.toList

def SIYEN_INITIAL_CONVERSION : List (List Char × List Char) :=
  [("z".toList, "j".toList), ("c".toList, "q".toList), ("s".toList, "x".toList)]

inductive Dialect where
  | siyen
  | hoiliuk
deriving DecidableEq, Fintype, Repr

def toneMapOf : Dialect → List (String × Char)
  | .siyen => SIYEN_TONES
  | .hoiliuk => HOILIUK_TONES

/-- NFD decomposition, restricted to the precomposed Latin letters
relevant to the source orthography. -/
def nfd_table : List (Char × List Char) :=
  [('á', ['a', '́']), ('à', ['a', '̀']), ('ā', ['a', '̄']),
   ('é', ['e', '́']), ('è', ['e', '̀']), ('ē', ['e', '̄']),
   ('í', ['i', '́']), ('ì', ['i', '̀']), ('ī', ['i', '̄']),
   ('ó', ['o', '́']), ('ò', ['o', '̀']), ('ō', ['o', '̄']),
   ('ú', ['u', '́']), ('ù', ['u', '̀']), ('ū', ['u', '̄']),
   ('ạ', ['a', '̣']), ('ẹ', ['e', '̣']), ('ị', ['i', '̣']),
   ('ọ', ['o', '̣']), ('ụ', ['u', '̣']),
   ('ṳ', ['u', '̤'])]

def nfd_char (c : Char) : List Char := (nfd_table.lookup c).getD [c]

def nfd (s : List Char) : List Char := (s.map nfd_char).flatten

def priority_order : List Diac :=
  [.macron_below, .dot_below, .macron, .acute, .grave]

/-- _normalize_and_extract_tone: NFD, separate base letters from combining
tone marks, select the tone class by the fixed priority order. -/
def normalize_and_extract_tone (s : List Char) : List Char × Option Diac :=
  let n := nfd s
  let base := n.filter (fun c => (diac_class c).isNone)
  let marks := n.filterMap diac_class
  (base,
   if marks.isEmpty then none
   else priority_order.find? (fun p => marks.contains p))

/-- _has_checked_final: the last character is one of p/t/k. -/
def has_checked_final (s : List Char) : Bool :=
  match s.getLast? with
  | some c => CHECKED_FINALS.contains c
  | none => false

/-- _split_syllable: longest-first initial match against INITIALS. -/
def split_syllable (s : List Char) : List Char × List Char :=
  match INITIALS.find? (fun ini => ini.isPrefixOf s) with
  | some ini => (ini, s.drop ini.length)
  | none => ([], s)

/-- _rhyme_starts_with_i_not_ii. -/
def rhyme_starts_with_i_not_ii (r : List Char) : Bool :=
  match r with
  | 'i' :: 'i' :: _ => false
  | 'i' :: _ => true
  | _ => false

/-- _convert_initial: z/c/s become j/q/x before a single i, siyen only. -/
def convert_initial (d : Dialect) (ini rhy : List Char) : List Char :=
  if d ≠ Dialect.siyen then ini
  else
    match SIYEN_INITIAL_CONVERSION.lookup ini with
    | some j => if rhyme_starts_with_i_not_ii rhy then j else ini
    | none => ini

/-- The `ⁿ → nn` replacement inside _convert_final. -/
def replace_sup_n (s : List Char) : List Char :=
  (s.map (fun c => if c = 'ⁿ' then ['n', 'n'] else [c])).flatten

/-- _convert_final: `ⁿ → nn`, then a trailing checked final p/t/k becomes
b/d/g. -/
def convert_final (s : List Char) : List Char :=
  let t := replace_sup_n s
  if has_checked_final t then
    match t.getLast? with
    | some c => t.dropLast ++ [(CONVERTED_FINALS.lookup c).getD c]
    | none => t
  else t

/-- The tone-digit decision of convert_syllable (both tables contain the
keys indexed directly by the source; `.getD` with the placeholder mirrors
dict.get with a placeholder default). -/
def resolveTone (d : Dialect) (tt : Option Diac) (hasChecked : Bool) : Char :=
  match tt with
  | none =>
    if hasChecked then ((toneMapOf d).lookup "none_checked").getD '?'
    else ((toneMapOf d).lookup "none").getD '?'
  | some t =>
    if t = Diac.dot_below ∧ hasChecked = true then
      ((toneMapOf d).lookup "dot_below").getD '?'
    else ((toneMapOf d).lookup (diac_name t)).getD '?'

/-- convert_syllable. -/
def convert_syllable (d : Dialect) (s : List Char) : List Char :=
  if s.isEmpty || s.all is_space_char then s
  else
    let et := normalize_and_extract_tone s
    let base := et.1
    let hasChecked := has_checked_final base
    let ir := split_syllable base
    let cini := convert_initial d ir.1 ir.2
    let crhy := convert_final ir.2
    cini ++ crhy ++ [resolveTone d et.2 hasChecked]

/-- Per-part action of convert_pronunciation: separators pass through,
syllables are converted. -/
def render_numbered_part (d : Dialect) (p : List Char) : List Char :=
  if is_sep_chunk p then p else convert_syllable d p

/-- convert_pronunciation. -/
def convert_pronunciation (d : Dialect) (s : List Char) : List Char :=
  if s = [] then []
  else ((chunks (replace_dashes s)).map (render_numbered_part d)).flatten

def SIYEN_TONE_MARKS : List (Char × List Char) :=
  [('1', ['ˊ']), ('2', ['ˋ']), ('3', []), ('4', ['ˋ']), ('5', ['ˇ']), ('8', [])]

def HOILIUK_TONE_MARKS : List (Char × List Char) :=
  [('1', ['ˋ']), ('2', ['ˊ']), ('3', ['ˇ']), ('4', []), ('5', []),
   ('7', ['+']), ('8', ['ˋ'])]

def toneMarksOf : Dialect → List (Char × List Char)
  | .siyen => SIYEN_TONE_MARKS
  | .hoiliuk => HOILIUK_TONE_MARKS

def sup_digits : List Char := ['⁰', '¹', '²', '³', '⁴', '⁵', '⁶', '⁷', '⁸', '⁹']

/-- Python str.isdigit, restricted to ASCII digits plus the superscript
digits this engine can emit. -/
def py_is_digit (c : Char) : Bool := c.isDigit || sup_digits.contains c

/-- Per-syllable body of numbered_to_marked: strip a trailing tone digit
and append the corresponding glyph (dict.get with empty default). -/
def mark_syllable (d : Dialect) (p : List Char) : List Char :=
  match p.getLast? with
  | some c =>
    if py_is_digit c then p.dropLast ++ ((toneMarksOf d).lookup c).getD []
    else p
  | none => p

def render_marked_part (d : Dialect) (p : List Char) : List Char :=
  if is_sep_chunk p then p else mark_syllable d p

/-- numbered_to_marked. -/
def numbered_to_marked (d : Dialect) (s : List Char) : List Char :=
  if s = [] then []
  else ((chunks s).map (render_marked_part d)).flatten

/-- NFC composition pairs, restricted to the combinations producible by
the PFS and IPA renderers. -/
def compose_table : List ((Char × Char) × Char) :=
  [(('a', '̀'), 'à'), (('a', '́'), 'á'), (('a', '̂'), 'â'),
   (('a', '̃'), 'ã'), (('a', '̄'), 'ā'),
   (('e', '̀'), 'è'), (('e', '́'), 'é'), (('e', '̂'), 'ê'),
   (('e', '̃'), 'ẽ'), (('e', '̄'), 'ē'),
   (('i', '̀'), 'ì'), (('i', '́'), 'í'), (('i', '̂'), 'î'),
   (('i', '̃'), 'ĩ'), (('i', '̄'), 'ī'),
   (('o', '̀'), 'ò'), (('o', '́'), 'ó'), (('o', '̂'), 'ô'),
   (('o', '̃'), 'õ'), (('o', '̄'), 'ō'),
   (('u', '̀'), 'ù'), (('u', '́'), 'ú'), (('u', '̂'), 'û'),
   (('u', '̃'), 'ũ'), (('u', '̄'), 'ū'),
   (('y', '̀'), 'ỳ'), (('y', '́'), 'ý'), (('y', '̂'), 'ŷ'),
   (('n', '́'), 'ń'), (('u', '̤'), 'ṳ')]

def nfc_fuel : Nat → List Char → List Char
  | _, [] => []
  | _, [c] => [c]
  | 0, l => l
  | fuel + 1, c1 :: c2 :: rest =>
    match compose_table.lookup (c1, c2) with
    | some c => nfc_fuel fuel (c :: rest)
    | none => c1 :: nfc_fuel fuel (c2 :: rest)

/-- unicodedata NFC, modelled over `compose_table` (the fuel bounds the
number of steps; one character is consumed per step). -/
def nfc (s : List Char) : List Char := nfc_fuel s.length s

def PFS_INITIAL_MAP : List (List Char × List Char) :=
  [("b".toList, "p".toList), ("p".toList, "ph".toList), ("d".toList, "t".toList),
   ("t".toList, "th".toList), ("g".toList, "k".toList), ("k".toList, "kh".toList),
   ("z".toList, "ch".toList), ("c".toList, "chh".toList), ("j".toList, "ch".toList),
   ("q".toList, "chh".toList), ("x".toList, "s".toList)]

def PFS_ENDING_MAP : List (List Char × List Char) :=
  [("b".toList, "p".toList), ("d".toList, "t".toList), ("g".toList, "k".toList)]

def PFS_TONE_MARKS : List (Char × List Char) :=
  [('1', ['̂']), ('2', ['́']), ('3', []), ('4', []),
   ('5', ['̀']), ('8', ['̍'])]

/-- _convert_pfs_nucleus. -/
def convert_pfs_nucleus (n : List Char) : List Char :=
  if n = "ii".toList then ['ṳ']
  else if n = "ua".toList then "oa".toList
  else if n = "ue".toList then "oe".toList
  else n

/-- _handle_initial_i_pfs. -/
def handle_initial_i_pfs (n : List Char) : List Char :=
  if n = "i".toList then "yi".toList
  else
    match n with
    | 'i' :: rest => 'y' :: rest
    | _ => n

def vowel_priority : List Char := ['a', 'o', 'e', 'u', 'ṳ', 'i']

/-- _find_pfs_tone_target; index −1 is the "no target" sentinel of the
source. -/
def find_pfs_tone_target (nucleus : List Char) : Int × List Char :=
  if "oa".toList.isPrefixOf nucleus then (0, ['o'])
  else
    match vowel_priority.findSome?
      (fun v => (nucleus.findIdx? (fun c => c == v)).map
        (fun i => ((i : Int), [v]))) with
    | some t => t
    | none =>
      if nucleus = "m".toList then (0, ['m'])
      else if nucleus = "n".toList then (0, ['n'])
      else if nucleus = "ng".toList then (0, ['n'])
      else (-1, [])

/-- _apply_pfs_tone_mark. -/
def apply_pfs_tone_mark (syl : List Char) (target : Int × List Char)
    (tone : Char) : List Char :=
  if target.1 = -1 then syl
  else
    let mark := (PFS_TONE_MARKS.lookup tone).getD []
    if mark = [] then syl
    else syl.take target.1.toNat ++ target.2 ++ mark ++ syl.drop (target.1.toNat + 1)

/-- The per-syllable conversion inside numbered_to_pfs. -/
def pfs_syllable (part : List Char) : List Char :=
  let tb : Char × List Char :=
    match part.getLast? with
    | some c => if py_is_digit c then (c, part.dropLast) else ('3', part)
    | none => ('3', part)
  let tone := tb.1
  let base := tb.2
  if base = "m".toList ∨ base = "n".toList ∨ base = "ng".toList then
    let target : Int × List Char :=
      if base = "ng".toList then (0, ['n']) else (0, base.take 1)
    apply_pfs_tone_mark base target tone
  else
    let ir := split_syllable base
    let ini := ir.1
    let rhy := ir.2
    let pfsIni := if ini = [] then [] else (PFS_INITIAL_MAP.lookup ini).getD ini
    let en : List Char × List Char :=
      if 2 ≤ rhy.length ∧ rhy.drop (rhy.length - 2) = "nn".toList then
        (['ⁿ'], rhy.take (rhy.length - 2))
      else if 2 ≤ rhy.length ∧ rhy.drop (rhy.length - 2) = "ng".toList then
        ("ng".toList, rhy.take (rhy.length - 2))
      else
        match rhy.getLast? with
        | some c =>
          if ['b', 'd', 'g', 'm', 'n'].contains c then ([c], rhy.dropLast)
          else ([], rhy)
        | none => ([], rhy)
    let nucleus := en.2
    let pfsNucleus0 := convert_pfs_nucleus nucleus
    let pfsNucleus :=
      if ini = [] ∧ ['i'].isPrefixOf pfsNucleus0 then handle_initial_i_pfs pfsNucleus0
      else pfsNucleus0
    let pfsEnding := if en.1 = [] then [] else (PFS_ENDING_MAP.lookup en.1).getD en.1
    let pfsBase := pfsIni ++ pfsNucleus ++ pfsEnding
    let target := find_pfs_tone_target pfsNucleus
    apply_pfs_tone_mark pfsBase (target.1 + (pfsIni.length : Int), target.2) tone

/-- Typed parts of the PFS assembly step. -/
inductive PfsPart where
  | punct (content : List Char)
  | syll (content : List Char)
deriving DecidableEq, Repr

/-- The hyphen-joining loop of numbered_to_pfs: a hyphen between adjacent
syllables, punctuation emitted directly with a following space unless it
is the em-dash or the last part. -/
def pfs_join (prevSyll : Bool) : List PfsPart → List Char
  | [] => []
  | .syll c :: rest => (if prevSyll then ['-'] else []) ++ c ++ pfs_join true rest
  | .punct c :: rest =>
    c ++ (if rest ≠ [] ∧ c ≠ ['—'] then [' '] else []) ++ pfs_join false rest

/-- numbered_to_pfs (siyen only). -/
def numbered_to_pfs (d : Dialect) (s : List Char) : List Char :=
  if s = [] then []
  else if d ≠ Dialect.siyen then []
  else
    let parts := chunks (replace_dashes s)
    let pfsParts := parts.filterMap (fun p =>
      if p.all is_punct_char then some (PfsPart.punct p)
      else if p.all is_space_char then none
      else some (PfsPart.syll (pfs_syllable p)))
    nfc (pfs_join false pfsParts)

def IPA_INITIAL_MAP : List (List Char × List Char) :=
  [("b".toList, "p".toList), ("p".toList, "pʰ".toList), ("m".toList, "m".toList),
   ("f".toList, "f".toList), ("v".toList, "v".toList), ("bb".toList, "b".toList),
   ("d".toList, "t".toList), ("t".toList, "tʰ".toList), ("n".toList, "n".toList),
   ("l".toList, "l".toList),
   ("g".toList, "k".toList), ("k".toList, "kʰ".toList), ("ng".toList, "ŋ".toList),
   ("h".toList, "h".toList), ("gg".toList, "g".toList),
   ("z".toList, "t͡s".toList), ("c".toList, "t͡sʰ".toList),
   ("s".toList, "s".toList), ("zz".toList, "z".toList),
   ("j".toList, "t͡ɕ".toList), ("q".toList, "t͡ɕʰ".toList),
   ("x".toList, "ɕ".toList),
   ("zh".toList, "t͡ʃ".toList), ("ch".toList, "t͡ʃʰ".toList),
   ("sh".toList, "ʃ".toList), ("rh".toList, "ʒ".toList)]

def SIYEN_TONE_VALUES : List (List Char × List Char) :=
  [("1".toList, "²⁴".toList), ("2".toList, "³¹".toList), ("3".toList, "⁵⁵".toList),
   ("4".toList, "²".toList), ("5".toList, "¹¹".toList), ("8".toList, "⁵".toList)]

def HOILIUK_TONE_VALUES : List (List Char × List Char) :=
  [("1".toList, "⁵³".toList), ("2".toList, "²⁴".toList), ("3".toList, "¹¹".toList),
   ("4".toList, "⁵".toList), ("5".toList, "⁵⁵".toList), ("7".toList, "³³".toList),
   ("8".toList, "²".toList)]

def toneValuesOf : Dialect → List (List Char × List Char)
  | .siyen => SIYEN_TONE_VALUES
  | .hoiliuk => HOILIUK_TONE_VALUES

/-- _parse_numbered_syllable; a syllable without a trailing digit comes
back whole in the first component, as in the source. -/
def parse_numbered_syllable (s : List Char) : List Char × List Char × List Char :=
  if s = [] then ([], [], [])
  else
    match s.getLast? with
    | some c =>
      if py_is_digit c then
        let base := s.dropLast
        let ini := (INITIALS.find? (fun i => i.isPrefixOf base)).getD []
        (ini, base.drop ini.length, [c])
      else (s, [], [])
    | none => ([], [], [])

/-- One left-to-right pass of str.replace for a two-character pattern
replaced by a single character. -/
def replace_pair (p1 p2 r : Char) : List Char → List Char
  | c1 :: c2 :: rest =>
    if c1 = p1 ∧ c2 = p2 then r :: replace_pair p1 p2 r rest
    else c1 :: replace_pair p1 p2 r (c2 :: rest)
  | l => l

def ipa_vowels : List Char := "aeiouɛɨɔ".toList

/-- _convert_ipa_rhyme. -/
def convert_ipa_rhyme (rhyme : List Char) : List Char :=
  if rhyme = [] then []
  else
    let r := replace_pair 'o' 'o' 'ɔ'
      (replace_pair 'i' 'i' 'ɨ' (replace_pair 'e' 'e' 'ɛ' rhyme))
    if 2 ≤ r.length ∧ r.drop (r.length - 2) = "nn".toList then
      ((r.take (r.length - 2)).map (fun c =>
        if ipa_vowels.contains c then [c, '̃'] else [c])).flatten
    else if 2 ≤ r.length ∧ r.drop (r.length - 2) = "ng".toList then
      r.take (r.length - 2) ++ ['ŋ']
    else
      match r.getLast? with
      | some 'b' => r.dropLast ++ ['p', '̚']
      | some 'd' => r.dropLast ++ ['t', '̚']
      | some 'g' => r.dropLast ++ ['k', '̚']
      | _ => r

/-- One row of the syllables_data list built by numbered_to_ipa. -/
structure SyllData where
  ipaIni : List Char
  ipaRhy : List Char
  tone : List Char
  orig : List Char
deriving DecidableEq, Repr

/-- _is_syllabic_consonant. -/
def is_syllabic_consonant (ini rhy : List Char) : Bool :=
  rhy.isEmpty &&
    (ini == "m".toList || ini == "n".toList || ini == "ng".toList)

/-- The per-syllable parse-and-respell step of numbered_to_ipa. -/
def ipa_syll_data (part : List Char) : SyllData :=
  let irt := parse_numbered_syllable part
  let ini := irt.1
  let rhy := irt.2.1
  let tone := irt.2.2
  let ipaIni := if ini = [] then [] else (IPA_INITIAL_MAP.lookup ini).getD ini
  if is_syllabic_consonant ini rhy then
    if ini = "m".toList then ⟨[], ['m', '̩'], tone, part⟩
    else if ini = "n".toList then ⟨[], ['n', '̩'], tone, part⟩
    else ⟨[], ['ŋ', '̍'], tone, part⟩
  else ⟨ipaIni, convert_ipa_rhyme rhy, tone, part⟩

/-- The tone-sandhi decision of _apply_sandhi for one syllable, given its
neighbours inside the same group. -/
def sandhi_one (d : Dialect) (prev : Option SyllData) (cur : SyllData)
    (next : Option SyllData) : List Char :=
  let baseVal := ((toneValuesOf d).lookup cur.tone).getD []
  let fromPrev : Option (List Char) :=
    match prev with
    | some p =>
      if d = Dialect.siyen ∧ (p.tone = "2".toList ∨ p.tone = "4".toList) ∧
          cur.orig = "e2".toList then
        some ((SIYEN_TONE_VALUES.lookup "5".toList).getD [])
      else none
    | none => none
  let sandhi : Option (List Char) :=
    match fromPrev with
    | some v => some v
    | none =>
      match next with
      | some n =>
        match d with
        | .siyen =>
          if cur.tone = "1".toList ∧
              (n.tone = "1".toList ∨ n.tone = "3".toList ∨ n.tone = "8".toList) then
            some ((SIYEN_TONE_VALUES.lookup "5".toList).getD [])
          else none
        | .hoiliuk =>
          if cur.tone = "2".toList then
            some ((HOILIUK_TONE_VALUES.lookup "7".toList).getD [])
          else if cur.tone = "4".toList then
            some ((HOILIUK_TONE_VALUES.lookup "8".toList).getD [])
          else none
      | none => none
  match sandhi with
  | some v => cur.ipaIni ++ cur.ipaRhy ++ baseVal ++ ['⁻'] ++ v
  | none => cur.ipaIni ++ cur.ipaRhy ++ baseVal

/-- _apply_sandhi over one punctuation group (index-based neighbour
access of the source becomes an explicit previous element). -/
def apply_sandhi (d : Dialect) : Option SyllData → List SyllData → List (List Char)
  | _, [] => []
  | prev, cur :: rest =>
    sandhi_one d prev cur rest.head? :: apply_sandhi d (some cur) rest

/-- One step of the token loop of numbered_to_ipa, updating
(syllables_data, has_punct_before). -/
def ipa_scan_step (st : List SyllData × List Bool) (part : List Char) :
    List SyllData × List Bool :=
  if is_sep_chunk part then
    if st.1 = [] then st else (st.1, st.2 ++ [true])
  else
    let sd := st.1 ++ [ipa_syll_data part]
    if st.2.length = sd.length then (sd, st.2 ++ [false]) else (sd, st.2)

/-- The grouping loop of numbered_to_ipa (`i < len(hpb) and hpb[i] and
current_group` starts a new group). -/
def build_groups (hpb : List Bool) : Nat → List SyllData → List SyllData →
    List (List SyllData)
  | _, current, [] => if current = [] then [] else [current]
  | i, current, dta :: rest =>
    if hpb.getD i false = true ∧ current ≠ [] then
      current :: build_groups hpb (i + 1) [dta] rest
    else
      build_groups hpb (i + 1) (current ++ [dta]) rest

/-- numbered_to_ipa. -/
def numbered_to_ipa (d : Dialect) (s : List Char) : List Char :=
  if s = [] then []
  else
    let st := (chunks s).foldl ipa_scan_step ([], [false])
    let groups := build_groups st.2 0 [] st.1
    let allS := (groups.map (fun g => apply_sandhi d none g)).flatten
    if allS = [] then [] else nfc (List.intercalate [' '] allS)

/-- The pronunciation sub-object of a dictionary entry; `Option` models
presence of the JSON key. -/
structure Pron where
  original : Option (List Char)
  numbered : Option (List Char)
  marked : Option (List Char)
  pfs : Option (List Char)
  ipa : Option (List Char)
deriving DecidableEq, Repr

/-- A dictionary entry: its pronunciation sub-object, when present, plus
everything else, which the driver never touches. -/
structure Entry where
  pronunciation : Option Pron
  extra : List (List Char)
deriving DecidableEq, Repr

/-- The guard of the batch loop: the pronunciation key is present on the
entry and the original key is present below it. -/
def has_original (e : Entry) : Bool :=
  match e.pronunciation with
  | some p => p.original.isSome
  | none => false

/-- The loop body of process_json_file for one entry that has a
pronunciation.original field. -/
def process_entry (d : Dialect) (e : Entry) : Entry :=
  match e.pronunciation with
  | some p =>
    match p.original with
    | some o0 =>
      let o := replace_dashes o0
      let numbered := convert_pronunciation d o
      let marked := numbered_to_marked d numbered
      let pfs := numbered_to_pfs d numbered
      let ipa := numbered_to_ipa d numbered
      let p2 : Pron :=
        { p with
          original := some o
          numbered := some numbered
          marked := some marked
          pfs := if d = Dialect.siyen ∧ pfs ≠ [] then some pfs else p.pfs
          ipa := if ipa ≠ [] then some ipa else p.ipa }
      { e with pronunciation := some p2 }
    | none => e
  | none => e

/-- The entry loop of process_json_file: entries without a
pronunciation.original field are left alone and not counted. -/
def process_entries (d : Dialect) : List Entry → List Entry × Nat
  | [] => ([], 0)
  | e :: rest =>
    let processed := if has_original e then process_entry d e else e
    let tail := process_entries d rest
    (processed :: tail.1, (if has_original e then 1 else 0) + tail.2)

/-! ### Generic helper lemmas -/

theorem lookup_mem {α β : Type} [BEq α] {l : List (α × β)} {a : α} {b : β}
    (h : l.lookup a = some b) : ∃ x ∈ l, x.2 = b := by
  induction l with
  | nil => simp [List.lookup] at h
  | cons x xs ih =>
    obtain ⟨k, v⟩ := x
    rw [List.lookup] at h
    cases hx : (a == k) with
    | true =>
      rw [hx] at h
      exact ⟨(k, v), by simp, by simpa using h⟩
    | false =>
      rw [hx] at h
      obtain ⟨y, hy, hb⟩ := ih h
      exact ⟨y, by simp [hy], hb⟩

theorem eq_append_drop_of_isPrefixOf {l m : List Char}
    (h : l.isPrefixOf m = true) : m = l ++ m.drop l.length := by
  obtain ⟨t, rfl⟩ := List.isPrefixOf_iff_prefix.mp h
  rw [List.drop_left]

theorem split_syllable_append (s : List Char) :
    (split_syllable s).1 ++ (split_syllable s).2 = s := by
  unfold split_syllable
  cases hf : INITIALS.find? (fun ini => ini.isPrefixOf s) with
  | none => simp
  | some ini =>
    simp only
    have hp : ini.isPrefixOf s = true := by simpa using List.find?_some hf
    exact (eq_append_drop_of_isPrefixOf hp).symm

/-! ### Character classes and the tokeniser -/

theorem charClass_space_iff (c : Char) :
    charClass c = CClass.space ↔ is_space_char c = true := by
  unfold charClass
  split_ifs with h1 h2 <;> simp_all

theorem charClass_punct_iff (c : Char) :
    charClass c = CClass.punct ↔ is_space_char c = false ∧ is_punct_char c = true := by
  unfold charClass
  split_ifs with h1 h2 <;> simp_all

theorem charClass_word_iff (c : Char) :
    charClass c = CClass.word ↔ is_space_char c = false ∧ is_punct_char c = false := by
  unfold charClass
  split_ifs with h1 h2 <;> simp_all

theorem chunks_cons_shape (c : Char) (cs : List Char) :
    ∃ ds rest, chunks (c :: cs) = (c :: ds) :: rest := by
  rcases h : chunks cs with _ | ⟨p, rest⟩
  · exact ⟨[], [], by rw [chunks, h]⟩
  · rcases p with _ | ⟨d, ds⟩
    · exact ⟨[], [] :: rest, by rw [chunks, h]⟩
    · by_cases hcd : charClass c = charClass d
      · exact ⟨d :: ds, rest, by rw [chunks, h]; simp [hcd]⟩
      · exact ⟨[], (d :: ds) :: rest, by rw [chunks, h]; simp [hcd]⟩

theorem chunks_ne_nil : ∀ (x : List Char), [] ∉ chunks x := by
  intro x
  induction x with
  | nil => simp [chunks]
  | cons c cs ih =>
    rcases h : chunks cs with _ | ⟨p, rest⟩
    · rw [chunks, h]; simp
    · rcases p with _ | ⟨d, ds⟩
      · exact absurd (h ▸ List.mem_cons_self _ _) ih
      · rw [chunks, h]
        by_cases hcd : charClass c = charClass d
        · simp only [if_pos hcd]
          intro hmem
          rcases List.mem_cons.mp hmem with h1 | h1
          · exact absurd h1.symm (by simp)
          · exact ih (h ▸ List.mem_cons_of_mem _ h1)
        · simp only [if_neg hcd]
          intro hmem
          rcases List.mem_cons.mp hmem with h1 | h1
          · exact absurd h1.symm (by simp)
          · exact ih (h ▸ h1)

theorem chunks_append_uniform (k : CClass) :
    ∀ (p y : List Char), p ≠ [] → (∀ c ∈ p, charClass c = k) →
    (∀ d, y.head? = some d → charClass d ≠ k) →
    chunks (p ++ y) = p :: chunks y := by
  intro p
  induction p with
  | nil => intro y h; exact absurd rfl h
  | cons c p ih =>
    intro y _ huni hy
    rcases p with _ | ⟨c2, p2⟩
    · rcases y with _ | ⟨d, y2⟩
      · simp [chunks]
      · obtain ⟨ds, rest, hch⟩ := chunks_cons_shape d y2
        have hcd : charClass c ≠ charClass d := by
          rw [huni c (by simp)]
          exact fun hh => hy d rfl hh.symm
        rw [List.singleton_append, chunks, hch]
        simp [hcd]
    · have hrec := ih y (by simp) (fun x hx => huni x (by simp [hx])) hy
      have hcc : charClass c = charClass c2 := by
        rw [huni c (by simp), huni c2 (by simp)]
      rw [List.cons_append, chunks, hrec]
      simp [hcc]

/-- Class of a chunk, given by its first character. -/
def chunkClass (p : List Char) : CClass :=
  match p.head? with
  | some c => charClass c
  | none => CClass.word

/-- A chunk is non-empty and single-class. -/
def UniformChunk (p : List Char) : Prop :=
  p ≠ [] ∧ ∀ c ∈ p, charClass c = chunkClass p

/-- A chunk list as produced by the tokeniser: non-empty single-class
chunks, adjacent chunks of distinct classes. -/
def GoodChunks : List (List Char) → Prop
  | [] => True
  | [p] => UniformChunk p
  | p :: q :: rest => UniformChunk p ∧ chunkClass p ≠ chunkClass q ∧ GoodChunks (q :: rest)

theorem GoodChunks.headUniform {p : List Char} {l : List (List Char)}
    (h : GoodChunks (p :: l)) : UniformChunk p := by
  cases l with
  | nil => exact h
  | cons q rest => exact h.1

theorem GoodChunks.tail {p : List Char} {l : List (List Char)}
    (h : GoodChunks (p :: l)) : GoodChunks l := by
  cases l with
  | nil => trivial
  | cons q rest => exact h.2.2

theorem goodChunks_extend {d : Char} {ds : List Char} {rest : List (List Char)}
    (c : Char) (hcd : charClass c = charClass d)
    (h : GoodChunks ((d :: ds) :: rest)) : GoodChunks ((c :: d :: ds) :: rest) := by
  have hall := h.headUniform.2
  have hu : UniformChunk (c :: d :: ds) := by
    refine ⟨by simp, ?_⟩
    intro e he
    have hcl : chunkClass (c :: d :: ds) = charClass c := rfl
    rw [hcl]
    rcases List.mem_cons.mp he with rfl | he2
    · rfl
    · have := hall e he2
      have hdd : chunkClass (d :: ds) = charClass d := rfl
      rw [hdd] at this
      rw [this, hcd]
  cases rest with
  | nil => exact hu
  | cons q r2 =>
    refine ⟨hu, ?_, h.2.2⟩
    have hne := h.2.1
    have hdd : chunkClass (d :: ds) = charClass d := rfl
    have hcc : chunkClass (c :: d :: ds) = charClass c := rfl
    rw [hcc, hcd, ← hdd]
    exact hne

theorem chunks_good : ∀ x : List Char, GoodChunks (chunks x) := by
  intro x
  induction x with
  | nil => trivial
  | cons c cs ih =>
    rcases h : chunks cs with _ | ⟨p, rest⟩
    · rw [chunks, h]
      exact ⟨by simp, by intro e he; simp at he; subst he; rfl⟩
    · rcases p with _ | ⟨d, ds⟩
      · exact absurd (h ▸ List.mem_cons_self _ _) (chunks_ne_nil cs)
      · rw [h] at ih
        by_cases hcd : charClass c = charClass d
        · rw [chunks, h]
          simp only [if_pos hcd]
          exact goodChunks_extend c hcd ih
        · rw [chunks, h]
          simp only [if_neg hcd]
          have hu : UniformChunk [c] :=
            ⟨by simp, by intro e he; simp at he; subst he; rfl⟩
          exact ⟨hu, by simpa [chunkClass] using hcd, ih⟩

theorem chunks_flatten : ∀ (ps : List (List Char)), GoodChunks ps →
    chunks ps.flatten = ps := by
  intro ps
  induction ps with
  | nil => intro _; rfl
  | cons p l ih =>
    intro h
    have hp := h.headUniform
    cases l with
    | nil =>
      simp only [List.flatten_cons, List.flatten_nil, List.append_nil]
      have := chunks_append_uniform (chunkClass p) p [] hp.1 hp.2 (by simp)
      simpa using this
    | cons q rest =>
      have hq := (GoodChunks.tail h).headUniform
      have hne := h.2.1
      have hy : ∀ dd, ((q :: rest).flatten).head? = some dd →
          charClass dd ≠ chunkClass p := by
        intro dd hdd
        rcases q with _ | ⟨e, q2⟩
        · exact absurd rfl hq.1
        · simp only [List.flatten_cons, List.cons_append, List.head?_cons] at hdd
          have hde : e = dd := by injection hdd
          subst hde
          have hce : charClass e = chunkClass (e :: q2) := hq.2 e (by simp)
          rw [hce]
          exact fun hh => hne hh.symm
      rw [List.flatten_cons,
        chunks_append_uniform (chunkClass p) p ((q :: rest).flatten) hp.1 hp.2 hy,
        ih (GoodChunks.tail h)]

theorem goodChunks_map {f : List Char → List Char} :
    ∀ (ps : List (List Char)), GoodChunks ps →
    (∀ p ∈ ps, UniformChunk p → UniformChunk (f p) ∧ chunkClass (f p) = chunkClass p) →
    GoodChunks (ps.map f) := by
  intro ps
  induction ps with
  | nil => intro _ _; trivial
  | cons p l ih =>
    intro h hf
    cases l with
    | nil => exact (hf p (by simp) h).1
    | cons q rest =>
      have hq := (GoodChunks.tail h).headUniform
      refine ⟨(hf p (by simp) h.1).1, ?_,
        ih h.2.2 (fun x hx hu => hf x (by simp [hx]) hu)⟩
      rw [(hf p (by simp) h.1).2, (hf q (by simp) hq).2]
      exact h.2.1

theorem chunks_flatten_map (f : List Char → List Char) (x : List Char)
    (hf : ∀ p ∈ chunks x, UniformChunk p →
      UniformChunk (f p) ∧ chunkClass (f p) = chunkClass p) :
    chunks ((chunks x).map f).flatten = (chunks x).map f :=
  chunks_flatten _ (goodChunks_map _ (chunks_good x) hf)

/-! ### Word-class preservation by the per-syllable converters -/

/-- Every character of the string is of word class. -/
def WordLike (p : List Char) : Prop := ∀ c ∈ p, charClass c = CClass.word

theorem wordlike_nfd {p : List Char} (h : WordLike p) : WordLike (nfd p) := by
  intro c hc
  unfold nfd at hc
  rw [List.mem_flatten] at hc
  obtain ⟨l, hl, hcl⟩ := hc
  rw [List.mem_map] at hl
  obtain ⟨a, ha, rfl⟩ := hl
  unfold nfd_char at hcl
  cases ht : nfd_table.lookup a with
  | none =>
    rw [ht] at hcl
    simp at hcl
    subst hcl
    exact h _ ha
  | some l2 =>
    rw [ht] at hcl
    simp at hcl
    obtain ⟨x, hx, hx2⟩ := lookup_mem ht
    have htab : ∀ x ∈ nfd_table, ∀ c ∈ x.2, charClass c = CClass.word := by decide
    exact htab x hx c (hx2 ▸ hcl)

theorem wordlike_base {p : List Char} (h : WordLike p) :
    WordLike (normalize_and_extract_tone p).1 := by
  intro c hc
  unfold normalize_and_extract_tone at hc
  simp only at hc
  exact wordlike_nfd h c (List.mem_of_mem_filter hc)

theorem wordlike_split {s : List Char} (h : WordLike s) :
    WordLike (split_syllable s).1 ∧ WordLike (split_syllable s).2 := by
  constructor <;> intro c hc <;> apply h <;> rw [← split_syllable_append s]
  · exact List.mem_append_left _ hc
  · exact List.mem_append_right _ hc

theorem wordlike_convert_initial (d : Dialect) {ini rhy : List Char}
    (h : WordLike ini) : WordLike (convert_initial d ini rhy) := by
  unfold convert_initial
  split
  · exact h
  · split
    · next j hl =>
      split
      · intro c hc
        obtain ⟨x, hx, hx2⟩ := lookup_mem hl
        have htab : ∀ x ∈ SIYEN_INITIAL_CONVERSION, ∀ c ∈ x.2,
            charClass c = CClass.word := by decide
        exact htab x hx c (hx2 ▸ hc)
      · exact h
    · exact h

theorem wordlike_replace_sup_n {p : List Char} (h : WordLike p) :
    WordLike (replace_sup_n p) := by
  intro c hc
  unfold replace_sup_n at hc
  rw [List.mem_flatten] at hc
  obtain ⟨l, hl, hcl⟩ := hc
  rw [List.mem_map] at hl
  obtain ⟨a, ha, rfl⟩ := hl
  by_cases hn : a = 'ⁿ'
  · simp [hn] at hcl
    subst hcl
    decide
  · simp [hn] at hcl
    subst hcl
    exact h _ ha

theorem wordlike_convert_final {rhy : List Char} (h : WordLike rhy) :
    WordLike (convert_final rhy) := by
  have ht := wordlike_replace_sup_n h
  simp only [convert_final]
  split
  · split
    · next c hc =>
      intro e he
      rcases List.mem_append.mp he with he1 | he1
      · exact ht e (List.dropLast_subset _ he1)
      · simp at he1
        subst he1
        cases hl : CONVERTED_FINALS.lookup c with
        | none =>
          simp only [Option.getD_none]
          exact ht c (List.mem_of_mem_getLast? hc)
        | some v =>
          simp only [Option.getD_some]
          obtain ⟨x, hx, hx2⟩ := lookup_mem hl
          have htab : ∀ x ∈ CONVERTED_FINALS, charClass x.2 = CClass.word := by decide
          exact hx2 ▸ htab x hx
    · exact ht
  · exact ht

theorem resolveTone_word :
    ∀ (d : Dialect) (tt : Option Diac) (hc : Bool),
    charClass (resolveTone d tt hc) = CClass.word := by decide

theorem wordlike_all_not_space {p : List Char} (hne : p ≠ []) (h : WordLike p) :
    p.all is_space_char = false := by
  rcases p with _ | ⟨c, p2⟩
  · exact absurd rfl hne
  · have hc := (charClass_word_iff c).mp (h c (by simp))
    simp [List.all_cons, hc.1]

theorem convert_syllable_eq {d : Dialect} {s : List Char}
    (hne : s ≠ []) (hsp : s.all is_space_char = false) :
    convert_syllable d s =
      convert_initial d (split_syllable (normalize_and_extract_tone s).1).1
          (split_syllable (normalize_and_extract_tone s).1).2 ++
        convert_final (split_syllable (normalize_and_extract_tone s).1).2 ++
        [resolveTone d (normalize_and_extract_tone s).2
          (has_checked_final (normalize_and_extract_tone s).1)] := by
  have hie : s.isEmpty = false := by
    rcases s with _ | _
    · exact absurd rfl hne
    · rfl
  rw [convert_syllable, hie, hsp]
  rfl

theorem convert_syllable_wordlike (d : Dialect) {p : List Char}
    (hne : p ≠ []) (h : WordLike p) :
    convert_syllable d p ≠ [] ∧ WordLike (convert_syllable d p) := by
  rw [convert_syllable_eq hne (wordlike_all_not_space hne h)]
  constructor
  · simp
  · intro c hc
    rcases List.mem_append.mp hc with hc1 | hc1
    · rcases List.mem_append.mp hc1 with hc2 | hc2
      · exact wordlike_convert_initial d (wordlike_split (wordlike_base h)).1 c hc2
      · exact wordlike_convert_final (wordlike_split (wordlike_base h)).2 c hc2
    · simp at hc1
      subst hc1
      exact resolveTone_word d _ _

/-! ### Separator chunks versus word chunks -/

theorem uniform_not_sep_wordlike {p : List Char}
    (hu : UniformChunk p) (hs : is_sep_chunk p = false) : WordLike p := by
  intro c hc
  have hcc := hu.2 c hc
  rcases hk : chunkClass p with _ | _ | _
  · exfalso
    have hall : p.all (fun c => is_space_char c || is_punct_char c) = true := by
      rw [List.all_eq_true]
      intro e he
      have := hu.2 e he
      rw [hk] at this
      rw [(charClass_space_iff e).mp this]
      rfl
    rw [is_sep_chunk, hall] at hs
    exact Bool.true_eq_false.mp hs
  · exfalso
    have hall : p.all (fun c => is_space_char c || is_punct_char c) = true := by
      rw [List.all_eq_true]
      intro e he
      have := hu.2 e he
      rw [hk] at this
      rw [((charClass_punct_iff e).mp this).2]
      simp
    rw [is_sep_chunk, hall] at hs
    exact Bool.true_eq_false.mp hs
  · rw [hk] at hcc
    exact hcc

theorem wordlike_chunkClass {p : List Char} (hne : p ≠ []) (h : WordLike p) :
    chunkClass p = CClass.word := by
  rcases p with _ | ⟨c, p2⟩
  · exact absurd rfl hne
  · exact h c (by simp)

theorem wordlike_uniform {p : List Char} (hne : p ≠ []) (h : WordLike p) :
    UniformChunk p := by
  refine ⟨hne, ?_⟩
  intro c hc
  rw [wordlike_chunkClass hne h]
  exact h c hc

theorem wordlike_not_sep {p : List Char} (hne : p ≠ []) (h : WordLike p) :
    is_sep_chunk p = false := by
  rcases p with _ | ⟨c, p2⟩
  · exact absurd rfl hne
  · have hc := (charClass_word_iff c).mp (h c (by simp))
    simp [is_sep_chunk, hc.1, hc.2]

/-- A single word-like token is one chunk. -/
theorem chunks_wordlike_singleton {p : List Char} (hne : p ≠ []) (h : WordLike p) :
    chunks p = [p] := by
  have := chunks_append_uniform (chunkClass p) p [] hne
    (wordlike_uniform hne h).2 (by simp)
  simpa using this

/-! ### Tone glyphs are word-class -/

theorem tone_glyph_wordlike (d : Dialect) (c : Char) :
    WordLike (((toneMarksOf d).lookup c).getD []) := by
  intro e he
  cases hl : (toneMarksOf d).lookup c with
  | none => rw [hl] at he; simp at he
  | some g =>
    rw [hl] at he
    simp only [Option.getD_some] at he
    obtain ⟨x, hx, hx2⟩ := lookup_mem hl
    have htab : ∀ dd : Dialect, ∀ x ∈ toneMarksOf dd, ∀ e ∈ x.2,
        charClass e = CClass.word := by decide
    exact htab d x hx e (hx2 ▸ he)

theorem mark_syllable_wordlike (d : Dialect) {p : List Char}
    (hlen : 2 ≤ p.length) (h : WordLike p) :
    mark_syllable d p ≠ [] ∧ WordLike (mark_syllable d p) := by
  have hne : p ≠ [] := by
    intro hh
    rw [hh] at hlen
    simp at hlen
  rcases hg : p.getLast? with _ | c
  · rw [List.getLast?_eq_none_iff] at hg
    exact absurd hg hne
  · simp only [mark_syllable, hg]
    by_cases hd : py_is_digit c = true
    · rw [if_pos hd]
      constructor
      · intro hh
        have := congrArg List.length hh
        simp at this
        omega
      · intro e he
        rcases List.mem_append.mp he with he1 | he1
        · exact h e (List.dropLast_subset _ he1)
        · exact tone_glyph_wordlike d c e he1
    · rw [if_neg hd]
      exact ⟨hne, h⟩

/-! ### Separator skeleton preservation -/

theorem chunks_convert_pronunciation (d : Dialect) (s : List Char) :
    chunks (convert_pronunciation d s) =
      (chunks (replace_dashes s)).map (render_numbered_part d) := by
  by_cases hs : s = []
  · subst hs; rfl
  · rw [convert_pronunciation, if_neg hs]
    apply chunks_flatten_map
    intro p hp hu
    unfold render_numbered_part
    by_cases hsep : is_sep_chunk p = true
    · rw [if_pos hsep]
      exact ⟨hu, rfl⟩
    · rw [if_neg hsep]
      have hw : WordLike p :=
        uniform_not_sep_wordlike hu (Bool.not_eq_true _ ▸ Bool.of_not_eq_true hsep)
      obtain ⟨hne, hw2⟩ := convert_syllable_wordlike d hu.1 hw
      refine ⟨wordlike_uniform hne hw2, ?_⟩
      rw [wordlike_chunkClass hne hw2, wordlike_chunkClass hu.1 hw]

theorem chunks_numbered_to_marked (d : Dialect) (s : List Char)
    (hlen : ∀ p ∈ chunks s, is_sep_chunk p = false → 2 ≤ p.length) :
    chunks (numbered_to_marked d s) = (chunks s).map (render_marked_part d) := by
  by_cases hs : s = []
  · subst hs; rfl
  · rw [numbered_to_marked, if_neg hs]
    apply chunks_flatten_map
    intro p hp hu
    unfold render_marked_part
    by_cases hsep : is_sep_chunk p = true
    · rw [if_pos hsep]
      exact ⟨hu, rfl⟩
    · rw [if_neg hsep]
      have hsep2 : is_sep_chunk p = false := Bool.of_not_eq_true hsep
      have hw : WordLike p := uniform_not_sep_wordlike hu hsep2
      obtain ⟨hne, hw2⟩ := mark_syllable_wordlike d (hlen p hp hsep2) hw
      refine ⟨wordlike_uniform hne hw2, ?_⟩
      rw [wordlike_chunkClass hne hw2, wordlike_chunkClass hu.1 hw]

/-! ### Claim theorems -/

/-- C1: for the raw syllable "pak" under siyen, convert_pronunciation
yields "pag8", numbered_to_marked "pag", numbered_to_pfs "pha̍k" (a with
combining vertical line above), numbered_to_ipa "pʰak̚⁵"; under hoiliuk
convert_pronunciation yields "pag4". -/
theorem c1_pak_pipeline :
    convert_pronunciation Dialect.siyen "pak".toList = "pag8".toList ∧
    numbered_to_marked Dialect.siyen "pag8".toList = "pag".toList ∧
    numbered_to_pfs Dialect.siyen "pag8".toList = ['p', 'h', 'a', '̍', 'k'] ∧
    numbered_to_ipa Dialect.siyen "pag8".toList = ['p', 'ʰ', 'a', 'k', '̚', '⁵'] ∧
    convert_pronunciation Dialect.hoiliuk "pak".toList = "pag4".toList := by
  refine ⟨by decide, by decide, by decide, by decide, by decide⟩

/-- C2 (code bug): on the numbered input "fa1, fa1" under siyen the
renderer applies the tone-1 sandhi to the first syllable although a
comma separates the two syllables (first conjunct), while the same
pre-comma text alone renders without sandhi (second conjunct): the
punctuation-grouping bookkeeping of numbered_to_ipa is misaligned, so a
syllable on the far side of a punctuation token does change the
rendering. -/
theorem c2_sandhi_crosses_punctuation :
    numbered_to_ipa Dialect.siyen "fa1, fa1".toList = "fa²⁴⁻¹¹ fa²⁴".toList ∧
    numbered_to_ipa Dialect.siyen "fa1,".toList = "fa²⁴".toList := by
  refine ⟨by decide, by decide⟩

/-- C10: a syllable that is exactly an INITIALS entry ending in p/t/k
(the entries "p", "t", "k") is split with an empty rhyme, is still
classified checked-final (the check runs on the whole base syllable),
gets the unmarked-checked tone digit of the dialect, and undergoes no
p/t/k to b/d/g substitution (the output is the bare initial plus the
digit); e.g. siyen "k" converts to "k8". -/
theorem c10_bare_initial_checked :
    ∀ (d : Dialect), ∀ s ∈ INITIALS,
      CHECKED_FINALS.contains (s.getLastD '?') = true →
      split_syllable s = (s, []) ∧
      has_checked_final s = true ∧
      ((toneMapOf d).lookup "none_checked").isSome = true ∧
      convert_syllable d s =
        s ++ [((toneMapOf d).lookup "none_checked").getD '?'] := by decide

/-- Tone inventory of each dialect, as fixed by the specification. -/
def toneInventory : Dialect → List Char
  | .siyen => ['1', '2', '3', '4', '5', '8']
  | .hoiliuk => ['1', '2', '3', '4', '5', '7', '8']

theorem resolveTone_inventory :
    ∀ (d : Dialect) (tt : Option Diac) (hc : Bool),
      (toneInventory d).contains (resolveTone d tt hc) = true ∨
      resolveTone d tt hc = '?' := by decide

/-- C4: for both dialects and every non-empty, non-whitespace syllable,
the tone character appended by convert_syllable (the last character of
the numbered syllable) is in the dialect inventory (siyen 1,2,3,4,5,8;
hoiliuk 1,2,3,4,5,7,8) or is the literal placeholder. -/
theorem c4_tone_digit_inventory (d : Dialect) (s : List Char)
    (hne : s ≠ []) (hsp : s.all is_space_char = false) :
    ∃ t, (convert_syllable d s).getLast? = some t ∧
      ((toneInventory d).contains t = true ∨ t = '?') := by
  rw [convert_syllable_eq hne hsp]
  refine ⟨resolveTone d (normalize_and_extract_tone s).2
      (has_checked_final (normalize_and_extract_tone s).1), ?_,
    resolveTone_inventory d (normalize_and_extract_tone s).2
      (has_checked_final (normalize_and_extract_tone s).1)⟩
  exact List.getLast?_concat _

theorem c4_witness :
    ∃ t, (convert_syllable Dialect.siyen "pak".toList).getLast? = some t ∧
      ((toneInventory Dialect.siyen).contains t = true ∨ t = '?') :=
  c4_tone_digit_inventory Dialect.siyen "pak".toList (by decide) (by decide)

/-! ### The checked-final substitution (C5) -/

theorem replace_sup_n_append (a b : List Char) :
    replace_sup_n (a ++ b) = replace_sup_n a ++ replace_sup_n b := by
  unfold replace_sup_n
  rw [List.map_append, List.flatten_append]

theorem getLast?_append_right {a b : List Char} {c : Char}
    (h : b.getLast? = some c) : (a ++ b).getLast? = some c := by
  have hne : b ≠ [] := by intro hh; rw [hh] at h; simp at h
  rw [List.getLast?_append_of_ne_nil a hne]
  exact h

theorem replace_sup_n_getLast {l : List Char} {c : Char}
    (hl : l.getLast? = some c) (hc : c ≠ 'ⁿ') :
    (replace_sup_n l).getLast? = some c := by
  have hne : l ≠ [] := by intro hh; rw [hh] at hl; simp at hl
  have hgl : l.dropLast ++ [c] = l := by
    have h1 := List.dropLast_append_getLast hne
    have h2 : l.getLast hne = c := by
      have := List.getLast?_eq_getLast l hne
      rw [this] at hl
      exact Option.some.inj hl
    rw [h2] at h1
    exact h1
  rw [← hgl, replace_sup_n_append]
  have hrc : replace_sup_n [c] = [c] := by
    unfold replace_sup_n
    simp [hc]
  rw [hrc]
  exact getLast?_append_right (by simp)

theorem replace_sup_n_getLast_supn {l : List Char}
    (hl : l.getLast? = some 'ⁿ') :
    (replace_sup_n l).getLast? = some 'n' := by
  have hne : l ≠ [] := by intro hh; rw [hh] at hl; simp at hl
  have hgl : l.dropLast ++ ['ⁿ'] = l := by
    have h1 := List.dropLast_append_getLast hne
    have h2 : l.getLast hne = 'ⁿ' := by
      have := List.getLast?_eq_getLast l hne
      rw [this] at hl
      exact Option.some.inj hl
    rw [h2] at h1
    exact h1
  rw [← hgl, replace_sup_n_append]
  have hrc : replace_sup_n ['ⁿ'] = ['n', 'n'] := by decide
  rw [hrc]
  exact getLast?_append_right (by simp)

/-- C5: for every syllable whose decomposed pre-conversion rhyme ends in
p, t or k, the checked-final test on the base syllable is true and the
converted rhyme ends in the mapped character b, d or g respectively;
and when the rhyme does not end in p/t/k, _convert_final performs no
final substitution at all (only the nasal rewriting). -/
theorem c5_checked_final_invariant (s : List Char) (f : Char)
    (hf : ((split_syllable (normalize_and_extract_tone s).1).2).getLast? = some f) :
    (CHECKED_FINALS.contains f = true →
      has_checked_final (normalize_and_extract_tone s).1 = true ∧
      (convert_final (split_syllable (normalize_and_extract_tone s).1).2).getLast? =
        CONVERTED_FINALS.lookup f) ∧
    (CHECKED_FINALS.contains f = false →
      convert_final (split_syllable (normalize_and_extract_tone s).1).2 =
        replace_sup_n (split_syllable (normalize_and_extract_tone s).1).2) := by
  have hrne : (split_syllable (normalize_and_extract_tone s).1).2 ≠ [] := by
    intro hh
    rw [hh] at hf
    simp at hf
  have hbgl : ((normalize_and_extract_tone s).1).getLast? = some f := by
    conv_lhs => rw [← split_syllable_append (normalize_and_extract_tone s).1]
    exact getLast?_append_right hf
  constructor
  · intro hcont
    have hcases : f = 'p' ∨ f = 't' ∨ f = 'k' := by
      simp [CHECKED_FINALS, List.contains] at hcont
      exact hcont
    have hfn : f ≠ 'ⁿ' := by
      rcases hcases with rfl | rfl | rfl <;> decide
    have ht := replace_sup_n_getLast hf hfn
    have hchk : has_checked_final
        (replace_sup_n (split_syllable (normalize_and_extract_tone s).1).2) = true := by
      rw [has_checked_final, ht]
      exact hcont
    refine ⟨?_, ?_⟩
    · rw [has_checked_final, hbgl]
      exact hcont
    · simp only [convert_final, hchk, if_true, ht]
      rw [List.getLast?_concat]
      rcases hcases with rfl | rfl | rfl <;> rfl
  · intro hcont
    by_cases hfn : f = 'ⁿ'
    · subst hfn
      have ht := replace_sup_n_getLast_supn hf
      have hchk : has_checked_final
          (replace_sup_n (split_syllable (normalize_and_extract_tone s).1).2) = false := by
        rw [has_checked_final, ht]
        decide
      simp only [convert_final, hchk]
      rfl
    · have ht := replace_sup_n_getLast hf hfn
      have hchk : has_checked_final
          (replace_sup_n (split_syllable (normalize_and_extract_tone s).1).2) = false := by
        rw [has_checked_final, ht]
        exact hcont
      simp only [convert_final, hchk]
      rfl

theorem c5_witness :
    (CHECKED_FINALS.contains 'k' = true →
      has_checked_final (normalize_and_extract_tone "pak".toList).1 = true ∧
      (convert_final
          (split_syllable (normalize_and_extract_tone "pak".toList).1).2).getLast? =
        CONVERTED_FINALS.lookup 'k') ∧
    (CHECKED_FINALS.contains 'k' = false →
      convert_final (split_syllable (normalize_and_extract_tone "pak".toList).1).2 =
        replace_sup_n (split_syllable (normalize_and_extract_tone "pak".toList).1).2) :=
  c5_checked_final_invariant "pak".toList 'k' (by decide)

/-! ### The placeholder tone digit (C6) -/

theorem resolveTone_missing :
    ∀ (d : Dialect) (t : Diac) (hc : Bool),
      (toneMapOf d).lookup (diac_name t) = none →
      resolveTone d (some t) hc = '?' := by decide

/-- C6: when the selected diacritic class of a (non-empty, word-class)
syllable has no entry in the tone table of the chosen dialect,
convert_syllable returns the converted syllable body with the literal
placeholder in place of a tone digit, that placeholder is the last
character, and numbered_to_marked leaves the placeholder-ended syllable
unchanged instead of failing. -/
theorem c6_unknown_diacritic_placeholder (d : Dialect) (s : List Char)
    (hne : s ≠ []) (hw : WordLike s) (t : Diac)
    (ht : (normalize_and_extract_tone s).2 = some t)
    (hmiss : (toneMapOf d).lookup (diac_name t) = none) :
    convert_syllable d s =
      convert_initial d (split_syllable (normalize_and_extract_tone s).1).1
          (split_syllable (normalize_and_extract_tone s).1).2 ++
        convert_final (split_syllable (normalize_and_extract_tone s).1).2 ++ ['?'] ∧
    (convert_syllable d s).getLast? = some '?' ∧
    numbered_to_marked d (convert_syllable d s) = convert_syllable d s := by
  have heq := convert_syllable_eq (d := d) hne (wordlike_all_not_space hne hw)
  rw [ht, resolveTone_missing d t _ hmiss] at heq
  have hlast : (convert_syllable d s).getLast? = some '?' := by
    rw [heq]
    exact List.getLast?_concat _
  refine ⟨heq, hlast, ?_⟩
  obtain ⟨hcne, hcw⟩ := convert_syllable_wordlike d hne hw
  rw [numbered_to_marked, if_neg hcne, chunks_wordlike_singleton hcne hcw]
  simp only [List.map_cons, List.map_nil, List.flatten_cons, List.flatten_nil,
    List.append_nil]
  have hns : ¬ is_sep_chunk (convert_syllable d s) = true := by
    rw [wordlike_not_sep hcne hcw]
    exact Bool.false_ne_true
  rw [render_marked_part, if_neg hns]
  have hq : py_is_digit '?' = false := by decide
  simp [mark_syllable, hlast, hq]

theorem c6_witness :
    convert_syllable Dialect.siyen "ā".toList =
      convert_initial Dialect.siyen
          (split_syllable (normalize_and_extract_tone "ā".toList).1).1
          (split_syllable (normalize_and_extract_tone "ā".toList).1).2 ++
        convert_final (split_syllable (normalize_and_extract_tone "ā".toList).1).2 ++
        ['?'] ∧
    (convert_syllable Dialect.siyen "ā".toList).getLast? = some '?' ∧
    numbered_to_marked Dialect.siyen (convert_syllable Dialect.siyen "ā".toList) =
      convert_syllable Dialect.siyen "ā".toList :=
  c6_unknown_diacritic_placeholder Dialect.siyen "ā".toList (by decide)
    (by unfold WordLike; decide) Diac.macron (by decide) (by decide)

/-- C7: for every syllable string ending in a tone digit and for both
dialect glyph tables, the marked form is the digit-stripped numbered
form with the tone glyph appended, so removing the glyph (taking the
first length-minus-one characters) returns exactly the numbered form
without its trailing digit; moreover on a word-class syllable the full
numbered_to_marked renderer acts as this per-syllable map. -/
theorem c7_marked_round_trip (d : Dialect) (p : List Char) (c : Char)
    (hlast : p.getLast? = some c) (hdig : py_is_digit c = true) :
    mark_syllable d p = p.dropLast ++ ((toneMarksOf d).lookup c).getD [] ∧
    (mark_syllable d p).take (p.length - 1) = p.dropLast ∧
    (WordLike p → numbered_to_marked d p = mark_syllable d p) := by
  have hne : p ≠ [] := by intro hh; rw [hh] at hlast; simp at hlast
  have h1 : mark_syllable d p =
      p.dropLast ++ ((toneMarksOf d).lookup c).getD [] := by
    simp only [mark_syllable, hlast]
    rw [if_pos hdig]
  refine ⟨h1, ?_, ?_⟩
  · rw [h1, ← List.length_dropLast, List.take_left]
  · intro hw
    rw [numbered_to_marked, if_neg hne, chunks_wordlike_singleton hne hw]
    simp only [List.map_cons, List.map_nil, List.flatten_cons, List.flatten_nil,
      List.append_nil]
    have hns : ¬ is_sep_chunk p = true := by
      rw [wordlike_not_sep hne hw]
      exact Bool.false_ne_true
    rw [render_marked_part, if_neg hns]

theorem c7_witness :
    mark_syllable Dialect.siyen "pag8".toList =
      ("pag8".toList).dropLast ++
        ((toneMarksOf Dialect.siyen).lookup '8').getD [] ∧
    (mark_syllable Dialect.siyen "pag8".toList).take ("pag8".toList.length - 1) =
      ("pag8".toList).dropLast ∧
    (WordLike "pag8".toList →
      numbered_to_marked Dialect.siyen "pag8".toList =
        mark_syllable Dialect.siyen "pag8".toList) :=
  c7_marked_round_trip Dialect.siyen "pag8".toList '8' (by decide) (by decide)

/-! ### Separator pass-through (C3) -/

/-- C3 counterexample: the claim fails as stated.  numbered_to_marked
turns " 3 " into two spaces (the bare tone-3 syllable renders empty and
the two whitespace tokens merge); numbered_to_pfs drops the whitespace
of "fa3 fa3" entirely (hyphen-joined output without spaces); and
numbered_to_ipa drops the comma of "fa3,". -/
theorem c3_counterexample :
    numbered_to_marked Dialect.siyen " 3 ".toList = "  ".toList ∧
    chunks (numbered_to_marked Dialect.siyen " 3 ".toList) ≠ chunks " 3 ".toList ∧
    numbered_to_pfs Dialect.siyen "fa3 fa3".toList = "fa-fa".toList ∧
    (numbered_to_pfs Dialect.siyen "fa3 fa3".toList).all
      (fun c => !is_space_char c) = true ∧
    numbered_to_ipa Dialect.siyen "fa3,".toList = "fa⁵⁵".toList ∧
    (numbered_to_ipa Dialect.siyen "fa3,".toList).all
      (fun c => !is_punct_char c) = true := by
  refine ⟨by decide, by decide, by decide, by decide, by decide, by decide⟩

/-- C3 (amended): whitespace and punctuation tokens pass through
convert_pronunciation (after its double-hyphen normalization) and
numbered_to_marked unchanged and in their original positions — the token
list of the output is the input token list with only the syllable tokens
rewritten — provided, for numbered_to_marked, that every syllable token
has at least two characters (a bare tone digit with an empty glyph
renders empty and merges its neighbouring whitespace).  The PFS and IPA
renderers do not preserve them: PFS drops whitespace and hyphen-joins
syllables, IPA drops both whitespace and punctuation and space-joins
syllables. -/
theorem c3_separator_passthrough :
    (∀ (d : Dialect) (s : List Char),
      chunks (convert_pronunciation d s) =
        (chunks (replace_dashes s)).map (render_numbered_part d)) ∧
    (∀ (d : Dialect) (s : List Char),
      (∀ p ∈ chunks s, is_sep_chunk p = false → 2 ≤ p.length) →
      chunks (numbered_to_marked d s) = (chunks s).map (render_marked_part d)) ∧
    numbered_to_pfs Dialect.siyen "fa3 fa3".toList = "fa-fa".toList ∧
    numbered_to_ipa Dialect.siyen "fa3,".toList = "fa⁵⁵".toList :=
  ⟨chunks_convert_pronunciation, chunks_numbered_to_marked, by decide, by decide⟩

theorem c3_witness :
    chunks (numbered_to_marked Dialect.siyen "pag8 to5".toList) =
      (chunks "pag8 to5".toList).map (render_marked_part Dialect.siyen) :=
  c3_separator_passthrough.2.1 Dialect.siyen "pag8 to5".toList (by decide)

/-! ### PFS is siyen-only (C8) -/

/-- C8: numbered_to_pfs returns the empty string for the hoiliuk dialect
on every input, and the batch driver leaves the pfs field of an entry
unchanged under hoiliuk (in particular, an absent pfs field stays
absent: the field is never stored empty). -/
theorem c8_pfs_siyen_only :
    (∀ s : List Char, numbered_to_pfs Dialect.hoiliuk s = []) ∧
    (∀ (e : Entry) (p : Pron), e.pronunciation = some p →
      ∃ q : Pron, (process_entry Dialect.hoiliuk e).pronunciation = some q ∧
        q.pfs = p.pfs) := by
  constructor
  · intro s
    by_cases hs : s = []
    · rw [numbered_to_pfs, if_pos hs]
    · rw [numbered_to_pfs, if_neg hs, if_pos (by decide)]
  · intro e p hp
    cases ho : p.original with
    | none =>
      refine ⟨p, ?_, rfl⟩
      simp only [process_entry, hp, ho]
    | some o =>
      simp only [process_entry, hp, ho]
      exact ⟨_, rfl, by simp⟩

theorem c8_witness :
    ∃ q : Pron,
      (process_entry Dialect.hoiliuk
          (Entry.mk (some (Pron.mk (some "pak".toList) none none none none))
            [])).pronunciation = some q ∧
      q.pfs = (Pron.mk (some "pak".toList) none none none none).pfs :=
  c8_pfs_siyen_only.2 _ _ rfl

/-! ### Batch robustness (C9) -/

/-- C9: an entry without a pronunciation.original field is passed
through to the output untouched and excluded from the processed count,
and every other entry of the batch is still processed normally. -/
theorem c9_batch_robustness (d : Dialect) (es1 es2 : List Entry) (e : Entry)
    (he : has_original e = false) :
    process_entries d (es1 ++ e :: es2) =
      ((process_entries d es1).1 ++ e :: (process_entries d es2).1,
       (process_entries d es1).2 + (process_entries d es2).2) := by
  induction es1 with
  | nil => simp [process_entries, he]
  | cons a as ih =>
    simp only [List.cons_append, process_entries, List.append_eq]
    rw [ih]
    simp [Nat.add_assoc]

def entry_pak : Entry :=
  Entry.mk (some (Pron.mk (some "pak".toList) none none none none)) []

def entry_bad : Entry := Entry.mk none ["x".toList]

theorem c9_witness :
    process_entries Dialect.siyen ([entry_pak] ++ entry_bad :: [entry_pak]) =
      ((process_entries Dialect.siyen [entry_pak]).1 ++
        entry_bad :: (process_entries Dialect.siyen [entry_pak]).1,
       (process_entries Dialect.siyen [entry_pak]).2 +
        (process_entries Dialect.siyen [entry_pak]).2) :=
  c9_batch_robustness Dialect.siyen [entry_pak] [entry_pak] entry_bad (by decide)

theorem c10_witness :
    split_syllable "k".toList = ("k".toList, []) ∧
    has_checked_final "k".toList = true ∧
    ((toneMapOf Dialect.siyen).lookup "none_checked").isSome = true ∧
    convert_syllable Dialect.siyen "k".toList =
      "k".toList ++ [((toneMapOf Dialect.siyen).lookup "none_checked").getD '?'] :=
  c10_bare_initial_checked Dialect.siyen "k".toList (by decide) (by decide)
